import Mathlib

/-!
Verification of the filesystem core of the `wander` file browser
(`src/filesystem.rs`, sorting code of `src/app.rs`).

The Rust code is shallowly embedded: paths are lists of components,
the filesystem is an explicit state (association list of file paths to
byte lists plus a set of directory paths), bytes are `Nat`, fallible
operations return `Except String`, and the side-effect order of the
crypto operations is captured by an explicit event trace.  The external
crates (`aes_gcm`, `pbkdf2`, `zip`, `walkdir`) are modelled at their
interface: concrete executable stand-ins that preserve the properties
the code relies on (AEAD decryption inverts encryption under the same
key and nonce and fails when the tag does not verify; PBKDF2 is a
deterministic 32-byte key derivation from password and salt; the zip
crate's `enclosed_name` performs its documented depth check).
-/

namespace Wander

/-! ### Orderings on machine values -/

/-- Model of Rust `u64::cmp` (`a.size.cmp(&b.size)` in `sort_entries`). -/
def natCmp (a b : Nat) : Ordering :=
  if a < b then .lt else if b < a then .gt else .eq

/-- Model of Rust `i64::cmp` (`a.modified.cmp(&b.modified)`). -/
def intCmp (a b : Int) : Ordering :=
  if a < b then .lt else if b < a then .gt else .eq

/-- Lexicographic byte comparison, modelling Rust `str::cmp`
(UTF-8 byte order, which coincides with code-point order). -/
def lexCmp : List Nat → List Nat → Ordering
  | [], [] => .eq
  | [], _ :: _ => .lt
  | _ :: _, [] => .gt
  | a :: as, b :: bs =>
    match natCmp a b with
    | .eq => lexCmp as bs
    | o => o

theorem natCmp_eq_lt {a b : Nat} : natCmp a b = .lt ↔ a < b := by
  unfold natCmp; split_ifs <;> simp <;> omega

theorem natCmp_eq_gt {a b : Nat} : natCmp a b = .gt ↔ b < a := by
  unfold natCmp; split_ifs <;> simp <;> omega

theorem natCmp_eq_eq {a b : Nat} : natCmp a b = .eq ↔ a = b := by
  unfold natCmp; split_ifs <;> simp <;> omega

theorem natCmp_swap (a b : Nat) : (natCmp a b).swap = natCmp b a := by
  unfold natCmp; split_ifs <;> simp [Ordering.swap] <;> omega

theorem intCmp_swap (a b : Int) : (intCmp a b).swap = intCmp b a := by
  unfold intCmp; split_ifs <;> simp [Ordering.swap] <;> omega

theorem natCmp_ne_gt {a b : Nat} : natCmp a b ≠ .gt ↔ a ≤ b := by
  rw [Ne, natCmp_eq_gt]; omega

theorem intCmp_ne_gt {a b : Int} : intCmp a b ≠ .gt ↔ a ≤ b := by
  unfold intCmp; split_ifs <;> simp <;> omega

theorem natCmp_le_trans {a b c : Nat} (h1 : natCmp a b ≠ .gt)
    (h2 : natCmp b c ≠ .gt) : natCmp a c ≠ .gt := by
  rw [natCmp_ne_gt] at h1 h2 ⊢; omega

theorem intCmp_le_trans {a b c : Int} (h1 : intCmp a b ≠ .gt)
    (h2 : intCmp b c ≠ .gt) : intCmp a c ≠ .gt := by
  rw [intCmp_ne_gt] at h1 h2 ⊢; omega

theorem lexCmp_swap : ∀ as bs : List Nat, (lexCmp as bs).swap = lexCmp bs as
  | [], [] => rfl
  | [], _ :: _ => rfl
  | _ :: _, [] => rfl
  | a :: as, b :: bs => by
    simp only [lexCmp]
    rcases lt_trichotomy a b with h | h | h
    · rw [natCmp_eq_lt.2 h, natCmp_eq_gt.2 h]; rfl
    · subst h
      rw [natCmp_eq_eq.2 rfl]
      exact lexCmp_swap as bs
    · rw [natCmp_eq_gt.2 h, natCmp_eq_lt.2 h]; rfl

theorem lexCmp_le_trans :
    ∀ as bs cs : List Nat, lexCmp as bs ≠ .gt → lexCmp bs cs ≠ .gt →
      lexCmp as cs ≠ .gt
  | [], _, [], _, _ => by simp [lexCmp]
  | [], _, _ :: _, _, _ => by simp [lexCmp]
  | _ :: _, [], _, h1, _ => by simp [lexCmp] at h1
  | _ :: _, _ :: _, [], _, h2 => by simp [lexCmp] at h2
  | a :: as, b :: bs, c :: cs, h1, h2 => by
    simp only [lexCmp] at h1 h2 ⊢
    rcases lt_trichotomy a b with hab | hab | hab
    · rcases lt_trichotomy b c with hbc | hbc | hbc
      · rw [natCmp_eq_lt.2 (hab.trans hbc)]; simp
      · subst hbc; rw [natCmp_eq_lt.2 hab]; simp
      · rw [natCmp_eq_gt.2 hbc] at h2; simp at h2
    · subst hab
      rcases lt_trichotomy a c with hac | hac | hac
      · rw [natCmp_eq_lt.2 hac]; simp
      · subst hac
        rw [natCmp_eq_eq.2 rfl] at h1 h2 ⊢
        exact lexCmp_le_trans as bs cs h1 h2
      · rw [natCmp_eq_gt.2 hac] at h2; simp at h2
    · rw [natCmp_eq_gt.2 hab] at h1; simp at h1

theorem lexCmp_total (as bs : List Nat) :
    lexCmp as bs ≠ .gt ∨ lexCmp bs as ≠ .gt := by
  by_cases h : lexCmp as bs = .gt
  · right
    rw [← lexCmp_swap as bs, h]
    simp [Ordering.swap]
  · exact Or.inl h

/-! ### File names

Rust `Path` file-name semantics on the final path component: `file_stem`
is the portion of the name before its last `.`, and `extension` the
portion after it, except that a name whose only `.` is its first
character (a hidden file such as `.bashrc`) has no extension. -/

/-- Split a file name into Rust `file_stem` and `extension`
(`none` when the name has no embedded dot). -/
def splitExtC (cs : List Char) : List Char × Option (List Char) :=
  match cs.reverse.dropWhile (fun c => decide (c ≠ '.')) with
  | [] => (cs, none)
  | _ :: [] => (cs, none)
  | _ :: st => (st.reverse, some (cs.reverse.takeWhile (fun c => decide (c ≠ '.'))).reverse)

/-- Rust `Path::set_extension` on a file name: the extension (if any) is
replaced, not appended; an empty new extension just drops the old one. -/
def withExtC (cs es : List Char) : List Char :=
  if es = [] then (splitExtC cs).1 else (splitExtC cs).1 ++ '.' :: es

/-- The file name produced by `encrypt_file`:
`path.with_extension(format!("{}.enc", path.extension().unwrap_or_default()))`. -/
def encNameC (cs : List Char) : List Char :=
  withExtC cs (((splitExtC cs).2.getD []) ++ ".enc".data)

/-- Rust `filename.ends_with(".enc")`. -/
def endsWithEncC (cs : List Char) : Bool :=
  decide (4 ≤ cs.length ∧ cs.drop (cs.length - 4) = ".enc".data)

/-- The file name produced by `decrypt_file`: strip a trailing `".enc"`,
otherwise `set_extension("decrypted")`. -/
def decNameC (cs : List Char) : List Char :=
  if endsWithEncC cs then cs.take (cs.length - 4)
  else withExtC cs "decrypted".data

theorem splitExtC_none {cs st : List Char} (h : splitExtC cs = (st, none)) :
    st = cs := by
  unfold splitExtC at h
  rcases hr : cs.reverse.dropWhile (fun c => decide (c ≠ '.')) with _ | ⟨d, rest⟩ <;>
    rw [hr] at h
  · have h' : ((cs, none) : List Char × Option (List Char)) = (st, none) := h
    exact (Prod.mk.inj h').1.symm
  · rcases rest with _ | ⟨e, rest'⟩
    · have h' : ((cs, none) : List Char × Option (List Char)) = (st, none) := h
      exact (Prod.mk.inj h').1.symm
    · have h' : (((e :: rest').reverse,
          some (cs.reverse.takeWhile (fun c => decide (c ≠ '.'))).reverse) :
          List Char × Option (List Char)) = (st, none) := h
      exact absurd (Prod.mk.inj h').2 (by simp)

theorem dropWhile_head_not {p : Char → Bool} :
    ∀ (l : List Char) {d : Char} {rest : List Char},
      l.dropWhile p = d :: rest → p d = false
  | [], _, _, h => by simp [List.dropWhile] at h
  | c :: cs, d, rest, h => by
    rw [List.dropWhile_cons] at h
    by_cases hc : p c
    · rw [if_pos hc] at h
      exact dropWhile_head_not cs h
    · rw [if_neg hc] at h
      cases h
      exact Bool.of_not_eq_true hc

theorem splitExtC_some {cs st ex : List Char}
    (h : splitExtC cs = (st, some ex)) : cs = st ++ '.' :: ex := by
  unfold splitExtC at h
  rcases hr : cs.reverse.dropWhile (fun c => decide (c ≠ '.')) with _ | ⟨d, rest⟩ <;>
    rw [hr] at h
  · simp at h
  · rcases rest with _ | ⟨e, rest'⟩
    · have h' : ((cs, none) : List Char × Option (List Char)) = (st, some ex) := h
      exact absurd (Prod.mk.inj h').2 (by simp)
    · have hd : d = '.' := by
        have := dropWhile_head_not cs.reverse hr
        simpa using this
      have hsplit :
          cs.reverse = cs.reverse.takeWhile (fun c => decide (c ≠ '.')) ++ d :: e :: rest' := by
        rw [← hr, List.takeWhile_append_dropWhile]
      have h' : (((e :: rest').reverse,
          some (cs.reverse.takeWhile (fun c => decide (c ≠ '.'))).reverse) :
          List Char × Option (List Char)) = (st, some ex) := h
      obtain ⟨h1, h2⟩ := Prod.mk.inj h'
      have hEx := Option.some.inj h2
      have hc := congrArg List.reverse hsplit
      rw [List.reverse_reverse, List.reverse_append] at hc
      refine hc.trans ?_
      rw [hd, List.reverse_cons, List.append_assoc, List.singleton_append, h1, hEx]

theorem encNameC_of_none {cs st : List Char}
    (h : splitExtC cs = (st, none)) : encNameC cs = cs ++ "..enc".data := by
  have hst := splitExtC_none h
  unfold encNameC withExtC
  rw [h]
  simp only [Option.getD_none, List.nil_append]
  rw [if_neg (by decide), hst]

theorem encNameC_of_some {cs st ex : List Char}
    (h : splitExtC cs = (st, some ex)) : encNameC cs = cs ++ ".enc".data := by
  have hcs := splitExtC_some h
  unfold encNameC withExtC
  rw [h]
  simp only [Option.getD_some]
  rw [if_neg (by simp)]
  rw [hcs, List.append_assoc]
  rfl

theorem encNameC_ne (cs : List Char) : encNameC cs ≠ cs := by
  intro h
  have hlen := congrArg List.length h
  rcases hsp : splitExtC cs with ⟨st, ex⟩
  rcases ex with _ | ex
  · rw [encNameC_of_none hsp] at hlen
    simp at hlen
  · rw [encNameC_of_some hsp] at hlen
    simp at hlen

theorem endsWithEncC_encNameC (cs : List Char) :
    endsWithEncC (encNameC cs) = true := by
  rcases hsp : splitExtC cs with ⟨st, ex⟩
  rcases ex with _ | ex
  · rw [encNameC_of_none hsp]
    unfold endsWithEncC
    have h4 : ("..enc".data : List Char) = ['.'] ++ ".enc".data := by decide
    rw [decide_eq_true_iff]
    constructor
    · simp [h4]
    · rw [h4, ← List.append_assoc]
      have : (cs ++ ['.'] ++ ".enc".data).length - 4 = (cs ++ ['.']).length := by
        simp
      rw [this, List.drop_left]
  · rw [encNameC_of_some hsp]
    unfold endsWithEncC
    rw [decide_eq_true_iff]
    constructor
    · simp
    · have : (cs ++ ".enc".data).length - 4 = cs.length := by simp
      rw [this, List.drop_left]

theorem decNameC_ne_of_endsWith {cs : List Char}
    (h : endsWithEncC cs = true) : decNameC cs ≠ cs := by
  intro heq
  unfold decNameC at heq
  rw [if_pos h] at heq
  unfold endsWithEncC at h
  rw [decide_eq_true_iff] at h
  have := congrArg List.length heq
  rw [List.length_take] at this
  omega

/-! ### Paths and the filesystem state

A path is its list of components.  The filesystem state is an
association list from file paths to contents (a later binding shadows
an earlier one, so `write` conses) together with the set of directory
paths.  The side effects an operation performs, in order, are recorded
as a list of events. -/

/-- A filesystem path, as its list of components. -/
abbrev Path := List String

/-- The final component of a path
(Rust `path.file_name().unwrap_or_default()`). -/
def nameOf (p : Path) : String := p.getLastD ""

/-- Rust `path.with_extension(e)`: replace the final component's extension. -/
def withExtensionP (p : Path) (e : String) : Path :=
  p.dropLast ++ [String.mk (withExtC (nameOf p).data e.data)]

/-- The output path of `encrypt_file` (source lines 58–64). -/
def encPathP (p : Path) : Path :=
  p.dropLast ++ [String.mk (encNameC (nameOf p).data)]

/-- The output path of `decrypt_file` (source lines 122–136). -/
def decPathP (p : Path) : Path :=
  p.dropLast ++ [String.mk (decNameC (nameOf p).data)]

/-- A filesystem side effect. -/
inductive Event where
  | readE (p : Path)
  | writeE (p : Path) (d : List Nat)
  | removeE (p : Path)
  | mkdirE (p : Path)
deriving DecidableEq

/-- Filesystem state: file contents plus the set of directories. -/
structure FS where
  files : List (Path × List Nat)
  dirs : List Path
deriving DecidableEq

/-- Look a path up in an association list (first binding wins). -/
def lookupP : List (Path × List Nat) → Path → Option (List Nat)
  | [], _ => none
  | e :: es, p => if e.1 = p then some e.2 else lookupP es p

/-- `fs::read`: the contents of the file at `p`, if it exists. -/
def FS.read (fs : FS) (p : Path) : Option (List Nat) := lookupP fs.files p

/-- `fs::write`: create or truncate the file at `p` with contents `d`. -/
def FS.write (fs : FS) (p : Path) (d : List Nat) : FS :=
  ⟨(p, d) :: fs.files, fs.dirs⟩

/-- `fs::remove_file`: delete the file at `p`. -/
def FS.remove (fs : FS) (p : Path) : FS :=
  ⟨fs.files.filter (fun e => !(decide (e.1 = p))), fs.dirs⟩

/-- `fs::create_dir_all`: record the directory at `p`. -/
def FS.mkdirAll (fs : FS) (p : Path) : FS :=
  ⟨fs.files, p :: fs.dirs⟩

/-- Rust `path.exists()`: a file or directory is present at `p`. -/
def FS.existsP (fs : FS) (p : Path) : Bool :=
  (fs.read p).isSome || fs.dirs.any (fun q => decide (q = p))

theorem FS.read_write_self (fs : FS) (p : Path) (d : List Nat) :
    (fs.write p d).read p = some d := by
  simp [FS.write, FS.read, lookupP]

theorem FS.read_write_ne (fs : FS) {p q : Path} (d : List Nat) (h : q ≠ p) :
    (fs.write p d).read q = fs.read q := by
  show (if p = q then some d else lookupP fs.files q) = lookupP fs.files q
  rw [if_neg (fun hh => h hh.symm)]

theorem lookupP_filter_ne {p q : Path} (h : q ≠ p) :
    ∀ l : List (Path × List Nat),
      lookupP (l.filter (fun e => !(decide (e.1 = p)))) q = lookupP l q
  | [] => rfl
  | e :: es => by
    by_cases hp : e.1 = p
    · rw [List.filter_cons_of_neg (by simp [hp])]
      rw [lookupP_filter_ne h es]
      show lookupP es q = if e.1 = q then some e.2 else lookupP es q
      rw [if_neg (fun hh => h (hh.symm.trans hp))]
    · rw [List.filter_cons_of_pos (by simp [hp])]
      show (if e.1 = q then some e.2
          else lookupP (es.filter (fun e => !(decide (e.1 = p)))) q) =
        if e.1 = q then some e.2 else lookupP es q
      by_cases hq : e.1 = q
      · rw [if_pos hq, if_pos hq]
      · rw [if_neg hq, if_neg hq]
        exact lookupP_filter_ne h es

theorem FS.read_remove_ne (fs : FS) {p q : Path} (h : q ≠ p) :
    (fs.remove p).read q = fs.read q :=
  lookupP_filter_ne h fs.files

/-! ### The cryptographic primitives (external crates)

Models of the `pbkdf2` and `aes_gcm` crates at their interface.  The
key derivation is an arbitrary deterministic function of password and
salt producing 32 bytes; the AEAD is a counter-mode-style keystream
mask plus a 16-byte tag depending on key, nonce and ciphertext body,
so that decryption inverts encryption under the same key and nonce and
fails exactly when the stored tag does not match. -/

/-- Byte values of a string (model of `str::as_bytes`). -/
def strBytes (s : String) : List Nat := s.data.map Char.toNat

/-- Model of `pbkdf2_hmac::<Sha256>(password, salt, 100_000, &mut key)`:
a deterministic 32-byte key from password and salt. -/
def pbkdf2Key (password : String) (salt : List Nat) : List Nat :=
  (List.range 32).map
    (fun i => ((strBytes password).sum * 131 + salt.sum * 59 + i * 17 + 1) % 256)

/-- Model keystream of the AEAD cipher for a given key and nonce. -/
def keystream (key nonce : List Nat) (n : Nat) : List Nat :=
  (List.range n).map (fun i => (key.sum * 3 + nonce.sum * 7 + i * 13 + 29) % 256)

/-- Model 16-byte authentication tag over key, nonce and ciphertext body. -/
def tagOf (key nonce body : List Nat) : List Nat :=
  (List.range 16).map
    (fun i => (key.sum * 5 + nonce.sum * 11 + body.sum * 23 + body.length * 41 + i * 3) % 256)

/-- Model of `Aes256Gcm::encrypt`: mask the plaintext with the keystream
and append the 16-byte tag. -/
def aeadEncrypt (key nonce pt : List Nat) : List Nat :=
  (pt.zipWith (fun a b => a ^^^ b) (keystream key nonce pt.length)) ++
    tagOf key nonce (pt.zipWith (fun a b => a ^^^ b) (keystream key nonce pt.length))

/-- Model of `Aes256Gcm::decrypt`: check the tag, then unmask;
`none` models the crate's `Err` on tag-verification failure. -/
def aeadDecrypt (key nonce ct : List Nat) : Option (List Nat) :=
  if ct.length < 16 then none
  else if ct.drop (ct.length - 16) = tagOf key nonce (ct.take (ct.length - 16)) then
    some ((ct.take (ct.length - 16)).zipWith (fun a b => a ^^^ b)
      (keystream key nonce (ct.take (ct.length - 16)).length))
  else none

theorem pbkdf2Key_length (password : String) (salt : List Nat) :
    (pbkdf2Key password salt).length = 32 := by
  simp [pbkdf2Key]

theorem keystream_length (key nonce : List Nat) (n : Nat) :
    (keystream key nonce n).length = n := by
  simp [keystream]

theorem mask_length (key nonce pt : List Nat) :
    (pt.zipWith (fun a b => a ^^^ b) (keystream key nonce pt.length)).length
      = pt.length := by
  simp [List.length_zipWith, keystream_length]

theorem aeadEncrypt_length (key nonce pt : List Nat) :
    (aeadEncrypt key nonce pt).length = pt.length + 16 := by
  unfold aeadEncrypt
  rw [List.length_append, mask_length]
  simp [tagOf]

theorem unmask_mask :
    ∀ (pt ks : List Nat), pt.length ≤ ks.length →
      ((pt.zipWith (fun a b => a ^^^ b) ks).zipWith (fun a b => a ^^^ b) ks) = pt
  | [], _, _ => by simp
  | p :: pt, [], h => by simp at h
  | p :: pt, k :: ks, h => by
    simp only [List.zipWith_cons_cons, Nat.xor_cancel_right]
    rw [unmask_mask pt ks (by simp at h; omega)]

theorem aead_roundtrip (key nonce pt : List Nat) :
    aeadDecrypt key nonce (aeadEncrypt key nonce pt) = some pt := by
  unfold aeadDecrypt
  rw [aeadEncrypt_length]
  rw [if_neg (by omega)]
  have hlen : pt.length + 16 - 16 =
      (pt.zipWith (fun a b => a ^^^ b) (keystream key nonce pt.length)).length := by
    rw [mask_length]; omega
  unfold aeadEncrypt
  rw [hlen, List.drop_left, List.take_left, if_pos rfl, mask_length,
    unmask_mask pt _ (by rw [keystream_length])]

/-! ### `encrypt_file` and `decrypt_file` (source lines 37–152)

The fresh random salt and nonce of `encrypt_file` are parameters
(models of `thread_rng().fill_bytes`), and `wok` is an oracle telling
which `fs::write` calls succeed (model of I/O errors).  Each function
returns the ordered list of filesystem side effects it performed
together with its result. -/

/-- Model of `encrypt_file(path, password)`. -/
def encrypt_file (wok : Path → Bool) (fs : FS) (path : Path)
    (password : String) (salt nonce : List Nat) : List Event × Except String FS :=
  match fs.read path with
  | none => ([Event.readE path], .error "read error")
  | some data =>
    if (pbkdf2Key password salt).length = 32 then
      if wok (encPathP path) then
        ([Event.readE path,
          Event.writeE (encPathP path)
            (salt ++ nonce ++ aeadEncrypt (pbkdf2Key password salt) nonce data),
          Event.removeE path],
         .ok ((fs.write (encPathP path)
            (salt ++ nonce ++ aeadEncrypt (pbkdf2Key password salt) nonce data)).remove
            path))
      else ([Event.readE path], .error "write error")
    else ([Event.readE path], .error "invalid key length")

/-- Model of `decrypt_file(path, password)`. -/
def decrypt_file (wok : Path → Bool) (fs : FS) (path : Path)
    (password : String) : List Event × Except String FS :=
  match fs.read path with
  | none => ([Event.readE path], .error "read error")
  | some data =>
    if data.length < 28 then
      ([Event.readE path], .error "Invalid encrypted file")
    else if (pbkdf2Key password (data.take 16)).length = 32 then
      match aeadDecrypt (pbkdf2Key password (data.take 16))
          ((data.drop 16).take 12) (data.drop 28) with
      | none => ([Event.readE path], .error "Decryption failed (wrong password?)")
      | some plaintext =>
        if wok (decPathP path) then
          ([Event.readE path, Event.writeE (decPathP path) plaintext,
            Event.removeE path],
           .ok ((fs.write (decPathP path) plaintext).remove path))
        else ([Event.readE path], .error "write error")
    else ([Event.readE path], .error "invalid key length")

theorem encPathP_ne (p : Path) : encPathP p ≠ p := by
  intro h
  have hlast := congrArg (fun l : List String => l.getLastD "") h
  unfold encPathP at hlast
  simp only at hlast
  rw [List.getLastD_concat] at hlast
  have : encNameC (nameOf p).data = (nameOf p).data := by
    have := congrArg String.data hlast
    simpa [nameOf] using this
  exact encNameC_ne _ this

theorem decPathP_ne_of_endsWith {p : Path}
    (h : endsWithEncC (nameOf p).data = true) : decPathP p ≠ p := by
  intro heq
  have hlast := congrArg (fun l : List String => l.getLastD "") heq
  unfold decPathP at hlast
  simp only at hlast
  rw [List.getLastD_concat] at hlast
  have : decNameC (nameOf p).data = (nameOf p).data := by
    have := congrArg String.data hlast
    simpa [nameOf] using this
  exact decNameC_ne_of_endsWith h this

/-! ### Directory entries and sorting (`read_directory`, `sort_entries`) -/

/-- `FileType` (source lines 19–25). -/
inductive FileType where
  | Directory
  | File
  | Symlink
  | Unknown
deriving DecidableEq

/-- `FileEntry` (source lines 27–35). -/
structure FileEntry where
  name : String
  path : Path
  file_type : FileType
  size : Nat
  modified : Int
  is_hidden : Bool
deriving DecidableEq

/-- Whether an entry is a directory (`a.file_type == FileType::Directory`). -/
def isDirB (e : FileEntry) : Bool := decide (e.file_type = FileType.Directory)

/-- Lower-cased bytes of a name
(model of `name.to_lowercase()` before byte comparison; ASCII case fold). -/
def nameKey (s : String) : List Nat :=
  s.data.map (fun c => if 65 ≤ c.toNat ∧ c.toNat ≤ 90 then c.toNat + 32 else c.toNat)

/-- Rust `Vec::sort_by(cmp)`: a stable sort by a comparator.  An element
is inserted before the first element it does not compare `Greater` to,
which is exactly the unique stable order for a total preorder. -/
def sortBy (cmp : FileEntry → FileEntry → Ordering) (l : List FileEntry) :
    List FileEntry :=
  List.insertionSort (fun a b => cmp a b ≠ .gt) l

/-- The comparator of `read_directory` (source lines 213–222):
directories first, case-insensitive name order otherwise. -/
def rdCmp (a b : FileEntry) : Ordering :=
  match isDirB a, isDirB b with
  | true, false => .lt
  | false, true => .gt
  | _, _ => lexCmp (nameKey a.name) (nameKey b.name)

/-- Model of `read_directory` (source lines 163–225): the enumeration
(`fs::read_dir`, with un-stat-able children already skipped) is the
input; the function sorts it with `rdCmp`. -/
def read_directory (raw : List FileEntry) : List FileEntry :=
  sortBy rdCmp raw

/-- `SortColumn` (app source line 79). -/
inductive SortColumn where
  | Name
  | Size
  | Modified
deriving DecidableEq

/-- `SortOrder` (app source line 86). -/
inductive SortOrder where
  | Ascending
  | Descending
deriving DecidableEq

/-- The per-column comparator of `sort_entries` (app source lines 436–440). -/
def colCmp (c : SortColumn) (a b : FileEntry) : Ordering :=
  match c with
  | .Name => lexCmp (nameKey a.name) (nameKey b.name)
  | .Size => natCmp a.size b.size
  | .Modified => intCmp a.modified b.modified

/-- The full first-pass comparator of `sort_entries` (app source lines
435–447): the column ordering, reversed when descending. -/
def entCmp (c : SortColumn) (o : SortOrder) (a b : FileEntry) : Ordering :=
  match o with
  | .Ascending => colCmp c a b
  | .Descending => (colCmp c a b).swap

/-- The second-pass comparator of `sort_entries` (app source lines
450–459): directories first, ties otherwise. -/
def dirCmp (a b : FileEntry) : Ordering :=
  match isDirB a, isDirB b with
  | true, false => .lt
  | false, true => .gt
  | _, _ => .eq

/-- Model of `sort_entries` (app source lines 434–460): a stable sort by
the chosen column and direction, then a stable sort pushing directories
to the front. -/
def sort_entries (c : SortColumn) (o : SortOrder) (entries : List FileEntry) :
    List FileEntry :=
  sortBy dirCmp (sortBy (entCmp c o) entries)

theorem colCmp_swap (c : SortColumn) (a b : FileEntry) :
    (colCmp c a b).swap = colCmp c b a := by
  cases c
  · exact lexCmp_swap _ _
  · exact natCmp_swap _ _
  · exact intCmp_swap _ _

theorem colCmp_le_trans {c : SortColumn} {a b d : FileEntry}
    (h1 : colCmp c a b ≠ .gt) (h2 : colCmp c b d ≠ .gt) :
    colCmp c a d ≠ .gt := by
  cases c
  · exact lexCmp_le_trans _ _ _ h1 h2
  · exact natCmp_le_trans h1 h2
  · exact intCmp_le_trans h1 h2

theorem colCmp_total (c : SortColumn) (a b : FileEntry) :
    colCmp c a b ≠ .gt ∨ colCmp c b a ≠ .gt := by
  by_cases h : colCmp c a b = .gt
  · right
    rw [← colCmp_swap, h]
    simp [Ordering.swap]
  · exact Or.inl h

theorem entCmp_le_trans {c : SortColumn} {o : SortOrder} {a b d : FileEntry}
    (h1 : entCmp c o a b ≠ .gt) (h2 : entCmp c o b d ≠ .gt) :
    entCmp c o a d ≠ .gt := by
  cases o
  · exact colCmp_le_trans h1 h2
  · rw [entCmp, colCmp_swap] at h1 h2 ⊢
    exact colCmp_le_trans h2 h1

theorem entCmp_total (c : SortColumn) (o : SortOrder) (a b : FileEntry) :
    entCmp c o a b ≠ .gt ∨ entCmp c o b a ≠ .gt := by
  cases o
  · exact colCmp_total c a b
  · rw [entCmp, entCmp, colCmp_swap, colCmp_swap]
    exact colCmp_total c b a

theorem rdCmp_le_trans {a b d : FileEntry}
    (h1 : rdCmp a b ≠ .gt) (h2 : rdCmp b d ≠ .gt) : rdCmp a d ≠ .gt := by
  unfold rdCmp at h1 h2 ⊢
  cases ha : isDirB a <;> cases hb : isDirB b <;> cases hd : isDirB d <;>
    rw [ha, hb] at h1 <;> rw [hb, hd] at h2 <;> simp_all <;>
    exact lexCmp_le_trans _ _ _ h1 h2

theorem rdCmp_total (a b : FileEntry) : rdCmp a b ≠ .gt ∨ rdCmp b a ≠ .gt := by
  unfold rdCmp
  cases ha : isDirB a <;> cases hb : isDirB b <;> simp_all
  · exact lexCmp_total _ _
  · exact lexCmp_total _ _

theorem sortBy_sorted (cmp : FileEntry → FileEntry → Ordering)
    (htrans : ∀ a b d, cmp a b ≠ .gt → cmp b d ≠ .gt → cmp a d ≠ .gt)
    (htotal : ∀ a b, cmp a b ≠ .gt ∨ cmp b a ≠ .gt) (l : List FileEntry) :
    (sortBy cmp l).Pairwise (fun a b => cmp a b ≠ .gt) := by
  haveI : IsTotal FileEntry (fun a b => cmp a b ≠ .gt) := ⟨htotal⟩
  haveI : IsTrans FileEntry (fun a b => cmp a b ≠ .gt) := ⟨htrans⟩
  exact List.sorted_insertionSort _ l

theorem sortBy_perm (cmp : FileEntry → FileEntry → Ordering)
    (l : List FileEntry) : (sortBy cmp l).Perm l :=
  List.perm_insertionSort _ l

theorem dirCmp_insert (x : FileEntry) :
    ∀ (A B : List FileEntry), (∀ a ∈ A, isDirB a = true) →
      (∀ b ∈ B, isDirB b = false) →
      List.orderedInsert (fun a b => dirCmp a b ≠ .gt) x (A ++ B) =
        if isDirB x then x :: (A ++ B) else A ++ x :: B
  | [], [], _, _ => by
    cases hx : isDirB x <;> simp [List.orderedInsert]
  | [], b :: B, _, hB => by
    have hb := hB b (by simp)
    cases hx : isDirB x <;>
      simp [List.orderedInsert, dirCmp, hx, hb]
  | a :: A, B, hA, hB => by
    have ha := hA a (List.mem_cons_self a A)
    have hrec := dirCmp_insert x A B (fun e he => hA e (List.mem_cons_of_mem a he)) hB
    cases hx : isDirB x
    · have hgt : ¬ (dirCmp x a ≠ .gt) := by simp [dirCmp, hx, ha]
      simp only [List.cons_append, List.orderedInsert, List.append_eq, if_neg hgt,
        if_neg (show ¬ isDirB x = true by simp [hx])]
      rw [hrec, if_neg (by simp [hx])]
      simp [hx]
    · have hle : dirCmp x a ≠ .gt := by simp [dirCmp, hx, ha]
      simp only [List.cons_append, List.orderedInsert, List.append_eq, if_pos hle,
        if_pos hx]
      simp [hx]

theorem sortBy_dirCmp_eq_filter (l : List FileEntry) :
    sortBy dirCmp l =
      l.filter (fun e => isDirB e) ++ l.filter (fun e => !(isDirB e)) := by
  induction l with
  | nil => rfl
  | cons x l ih =>
    show List.orderedInsert _ x (sortBy dirCmp l) = _
    rw [ih, dirCmp_insert x _ _ (fun e he => (List.mem_filter.1 he).2)
      (fun e he => by simpa using (List.mem_filter.1 he).2)]
    cases hx : isDirB x <;> simp [List.filter_cons, hx]

/-! ### The archive engine (`create_zip`, `extract_zip`)

The zip container and the `walkdir` traversal are external crates; they
are modelled as: an archive is its list of entries (stored name plus
contents), serialized by a concrete injective-enough byte encoding, and
the traversal enumerates the paths under the walk root in the order of
the filesystem state. -/

/-- One archive entry: the stored (forward-slash) name and its bytes. -/
structure ZipEntry where
  name : String
  data : List Nat
deriving DecidableEq

/-- Model of the zip container serialization produced by `ZipWriter`. -/
def zipBytes : List ZipEntry → List Nat
  | [] => []
  | e :: es => strBytes e.name ++ [0] ++ e.data ++ [0] ++ zipBytes es

/-- Split a stored name on `/` (components of `Path::new(name)`;
empty components collapse). -/
def splitSlashAux : List Char → List Char → List String
  | cur, [] => [String.mk cur.reverse]
  | cur, c :: cs =>
    if c = '/' then String.mk cur.reverse :: splitSlashAux [] cs
    else splitSlashAux (c :: cur) cs

/-- The path components of a stored entry name. -/
def nameComponents (s : String) : List String :=
  (splitSlashAux [] s.data).filter (fun c => decide (c ≠ ""))

/-- The depth check of the zip crate's `enclosed_name`: `..` may never
take the path above its starting point. -/
def okD : Nat → List String → Bool
  | _, [] => true
  | d, c :: cs =>
    if c = "." then okD d cs
    else if c = ".." then
      match d with
      | 0 => false
      | d' + 1 => okD d' cs
    else okD (d + 1) cs

/-- Model of `ZipEntry::enclosed_name` (zip crate): `None` for an
absolute name or one whose `..` components would escape. -/
def enclosedName (s : String) : Option (List String) :=
  if s.data.headD 'A' = '/' then none
  else if okD 0 (nameComponents s) then some (nameComponents s)
  else none

/-- Whether a stored name marks a directory entry
(`file.name().ends_with('/')`). -/
def endsWithSlash (s : String) : Bool :=
  decide (s.data.getLastD 'A' = '/')

/-- Model of `extract_zip(zip_path, dest_dir)` (source lines 362–386)
over the archive's parsed entry list, returning the ordered filesystem
side effects and the result.  Entries whose `enclosed_name` is `None`
are skipped (`continue`); directory entries are created; file entries
get their parent directory created if missing, then their bytes
written. -/
def extract_zip (destDir : Path) : FS → List ZipEntry → List Event × Except String FS
  | fs, [] => ([], .ok fs)
  | fs, e :: rest =>
    match enclosedName e.name with
    | none => extract_zip destDir fs rest
    | some comps =>
      if endsWithSlash e.name then
        (Event.mkdirE (destDir ++ comps) ::
            (extract_zip destDir (fs.mkdirAll (destDir ++ comps)) rest).1,
         (extract_zip destDir (fs.mkdirAll (destDir ++ comps)) rest).2)
      else if fs.existsP (destDir ++ comps).dropLast then
        (Event.writeE (destDir ++ comps) e.data ::
            (extract_zip destDir (fs.write (destDir ++ comps) e.data) rest).1,
         (extract_zip destDir (fs.write (destDir ++ comps) e.data) rest).2)
      else
        (Event.mkdirE (destDir ++ comps).dropLast ::
            Event.writeE (destDir ++ comps) e.data ::
            (extract_zip destDir
              ((fs.mkdirAll (destDir ++ comps).dropLast).write
                (destDir ++ comps) e.data) rest).1,
         (extract_zip destDir
            ((fs.mkdirAll (destDir ++ comps).dropLast).write
              (destDir ++ comps) e.data) rest).2)

/-- Join path components with forward slashes
(`strip_prefix` result with `"\\"` replaced by `"/"`). -/
def joinComps : List String → String
  | [] => ""
  | [c] => c
  | c :: cs => c ++ "/" ++ joinComps cs

/-- Model of `create_zip(src_path, dest_path)` (source lines 330–360).
`File::create(dest_path)` runs first and unconditionally creates or
truncates `dest_path`; a file source becomes a single entry at the
archive root; a directory source is walked (the `walkdir` enumeration
is modelled as: directories under `src`, then files under `src`, in
filesystem-state order), each entry keyed by its path relative to
`src`. -/
def create_zip (fs : FS) (src dest : Path) : Except String FS :=
  if (fs.read src).isSome then
    .ok ((fs.write dest []).write dest
      (zipBytes [⟨nameOf src, ((fs.write dest []).read src).getD []⟩]))
  else
    .ok ((fs.write dest []).write dest
      (zipBytes
        (((fs.write dest []).dirs.filter
            (fun p => decide (p.take src.length = src) && !(decide (p = src)))).map
          (fun p => ZipEntry.mk (joinComps (p.drop src.length) ++ "/") []) ++
         ((fs.write dest []).files.filter
            (fun e => decide (e.1.take src.length = src))).map
          (fun e => ZipEntry.mk (joinComps (e.1.drop src.length)) e.2))))

/-- Model of the app-layer `compress_selected` guard (app source lines
652–668): refuse when the destination archive already exists, otherwise
call `create_zip`. -/
def compress_selected (fs : FS) (src : Path) : Except String FS :=
  if fs.existsP (withExtensionP src "zip") then
    .error "Destination zip already exists"
  else create_zip fs src (withExtensionP src "zip")

/-- Model of `create_file(parent, name)` (source lines 280–287). -/
def create_file (fs : FS) (parent : Path) (name : String) : Except String FS :=
  if fs.existsP (parent ++ [name]) then .error "File already exists"
  else .ok (fs.write (parent ++ [name]) [])

/-- Model of `create_directory(parent, name)` (source lines 272–278). -/
def create_directory (fs : FS) (parent : Path) (name : String) : Except String FS :=
  if fs.existsP (parent ++ [name]) then .error "Directory already exists"
  else .ok (fs.mkdirAll (parent ++ [name]))

/-- Left fold of lexical `.`/`..` resolution, starting from `acc`. -/
def resolveA : List String → List String → List String
  | acc, [] => acc
  | acc, c :: cs =>
    if c = "." then resolveA acc cs
    else if c = ".." then resolveA acc.dropLast cs
    else resolveA (acc ++ [c]) cs

theorem resolveA_noDots :
    ∀ (l acc : List String), (∀ c ∈ l, c ≠ "." ∧ c ≠ "..") →
      resolveA acc l = acc ++ l
  | [], acc, _ => by simp [resolveA]
  | c :: cs, acc, h => by
    have hc := h c (List.mem_cons_self c cs)
    unfold resolveA
    rw [if_neg hc.1, if_neg hc.2,
      resolveA_noDots cs (acc ++ [c]) (fun e he => h e (List.mem_cons_of_mem c he))]
    simp

theorem resolveA_append :
    ∀ (l1 l2 acc : List String), resolveA acc (l1 ++ l2) = resolveA (resolveA acc l1) l2
  | [], _, _ => by simp [resolveA]
  | c :: cs, l2, acc => by
    simp only [List.cons_append, resolveA]
    by_cases h1 : c = "."
    · rw [if_pos h1, if_pos h1]
      exact resolveA_append cs l2 acc
    · rw [if_neg h1, if_neg h1]
      by_cases h2 : c = ".."
      · rw [if_pos h2, if_pos h2]
        exact resolveA_append cs l2 acc.dropLast
      · rw [if_neg h2, if_neg h2]
        exact resolveA_append cs l2 (acc ++ [c])

theorem dropLast_append_ne {α : Type} (l1 : List α) :
    ∀ l2 : List α, l2 ≠ [] → (l1 ++ l2).dropLast = l1 ++ l2.dropLast := by
  intro l2 h
  induction l1 with
  | nil => simp
  | cons x l1 ih =>
    rw [List.cons_append, List.dropLast_cons_of_ne_nil (by simp [h]), ih,
      List.cons_append]

theorem okD_resolveA :
    ∀ (cs : List String) (d : Nat) (acc extra : List String),
      extra.length = d → okD d cs = true →
      ∃ rest, resolveA (acc ++ extra) cs = acc ++ rest
  | [], d, acc, extra, _, _ => ⟨extra, by simp [resolveA]⟩
  | c :: cs, d, acc, extra, hlen, hok => by
    unfold okD at hok
    unfold resolveA
    by_cases h1 : c = "."
    · rw [if_pos h1] at hok ⊢
      exact okD_resolveA cs d acc extra hlen hok
    · rw [if_neg h1] at hok ⊢
      by_cases h2 : c = ".."
      · rw [if_pos h2] at hok ⊢
        match d, extra with
        | 0, extra => simp at hok
        | d' + 1, extra =>
          have hne : extra ≠ [] := by
            intro hh
            rw [hh] at hlen
            simp at hlen
          rw [dropLast_append_ne acc extra hne]
          exact okD_resolveA cs d' acc extra.dropLast
            (by simp [List.length_dropLast, hlen]) hok
      · rw [if_neg h2] at hok ⊢
        rw [List.append_assoc]
        exact okD_resolveA cs (d + 1) acc (extra ++ [c])
          (by simp [hlen]) hok

theorem take_len_append {α : Type} :
    ∀ l1 l2 : List α, (l1 ++ l2).take l1.length = l1
  | [], _ => by simp
  | x :: l1, l2 => by
    rw [List.cons_append, List.length_cons, List.take_succ_cons,
      take_len_append l1 l2]

theorem enclosedName_okD {s : String} {comps : List String}
    (h : enclosedName s = some comps) : okD 0 comps = true := by
  unfold enclosedName at h
  by_cases h1 : s.data.headD 'A' = '/'
  · rw [if_pos h1] at h
    exact absurd h (by simp)
  · rw [if_neg h1] at h
    by_cases h2 : okD 0 (nameComponents s) = true
    · rw [if_pos h2] at h
      cases h
      exact h2
    · rw [if_neg h2] at h
      exact absurd h (by simp)

/-! ### Unfolding lemmas for the crypto operations -/

theorem encrypt_file_ok (wok : Path → Bool) (fs : FS) (path : Path)
    (password : String) (salt nonce data : List Nat)
    (hr : fs.read path = some data) (hw : wok (encPathP path) = true) :
    encrypt_file wok fs path password salt nonce =
      ([Event.readE path,
        Event.writeE (encPathP path)
          (salt ++ nonce ++ aeadEncrypt (pbkdf2Key password salt) nonce data),
        Event.removeE path],
       .ok ((fs.write (encPathP path)
          (salt ++ nonce ++ aeadEncrypt (pbkdf2Key password salt) nonce data)).remove
          path)) := by
  simp [encrypt_file, hr, hw, pbkdf2Key_length]

theorem decrypt_file_ok (wok : Path → Bool) (fs : FS) (path : Path)
    (password : String) (data pt : List Nat)
    (hr : fs.read path = some data) (hlen : ¬ data.length < 28)
    (hd : aeadDecrypt (pbkdf2Key password (data.take 16)) ((data.drop 16).take 12)
      (data.drop 28) = some pt)
    (hw : wok (decPathP path) = true) :
    decrypt_file wok fs path password =
      ([Event.readE path, Event.writeE (decPathP path) pt, Event.removeE path],
       .ok ((fs.write (decPathP path) pt).remove path)) := by
  simp [decrypt_file, hr, hlen, hd, hw, pbkdf2Key_length]

theorem decrypt_file_err (wok : Path → Bool) (fs : FS) (path : Path)
    (password : String) (data : List Nat)
    (hr : fs.read path = some data) (hlen : ¬ data.length < 28)
    (hd : aeadDecrypt (pbkdf2Key password (data.take 16)) ((data.drop 16).take 12)
      (data.drop 28) = none) :
    decrypt_file wok fs path password =
      ([Event.readE path], .error "Decryption failed (wrong password?)") := by
  simp [decrypt_file, hr, hlen, hd, pbkdf2Key_length]

theorem drop_len_append {α : Type} :
    ∀ l1 l2 : List α, (l1 ++ l2).drop l1.length = l2
  | [], _ => by simp
  | x :: l1, l2 => by
    rw [List.cons_append, List.length_cons, List.drop_succ_cons,
      drop_len_append l1 l2]

theorem layout_take16 {salt : List Nat} (nonce ct : List Nat)
    (hs : salt.length = 16) : ((salt ++ nonce) ++ ct).take 16 = salt := by
  rw [List.append_assoc, ← hs, take_len_append]

theorem layout_drop16 {salt : List Nat} (nonce ct : List Nat)
    (hs : salt.length = 16) : ((salt ++ nonce) ++ ct).drop 16 = nonce ++ ct := by
  rw [List.append_assoc, ← hs, drop_len_append]

theorem layout_nonce {salt nonce : List Nat} (ct : List Nat)
    (hs : salt.length = 16) (hn : nonce.length = 12) :
    (((salt ++ nonce) ++ ct).drop 16).take 12 = nonce := by
  rw [layout_drop16 nonce ct hs, ← hn, take_len_append]

theorem layout_drop28 {salt nonce : List Nat} (ct : List Nat)
    (hs : salt.length = 16) (hn : nonce.length = 12) :
    ((salt ++ nonce) ++ ct).drop 28 = ct := by
  have h1 : (((salt ++ nonce) ++ ct).drop 16).drop 12 = ((salt ++ nonce) ++ ct).drop 28 :=
    List.drop_drop 12 16 _
  rw [← h1, layout_drop16 nonce ct hs, ← hn, drop_len_append]

theorem layout_len {salt nonce : List Nat} (ct : List Nat)
    (hs : salt.length = 16) (hn : nonce.length = 12) :
    ¬ ((salt ++ nonce) ++ ct).length < 28 := by
  simp [hs, hn]
  omega

theorem nameOf_encPathP (p : Path) :
    nameOf (encPathP p) = String.mk (encNameC (nameOf p).data) := by
  unfold encPathP nameOf
  rw [List.getLastD_concat]

theorem endsWith_encPathP (p : Path) :
    endsWithEncC (nameOf (encPathP p)).data = true := by
  rw [nameOf_encPathP]
  exact endsWithEncC_encNameC _

theorem decPathP_encPathP_ne (p : Path) : decPathP (encPathP p) ≠ encPathP p :=
  decPathP_ne_of_endsWith (endsWith_encPathP p)

theorem not_remove_mem_single (p q : Path) (n : Nat) :
    Event.removeE p ∉ ([Event.readE q].take n) := by
  cases n <;> simp

theorem remove_to_write {p q : Path} {d : List Nat} {n : Nat}
    (h : Event.removeE p ∈
      ([Event.readE p, Event.writeE q d, Event.removeE p].take n)) :
    Event.writeE q d ∈
      ([Event.readE p, Event.writeE q d, Event.removeE p].take n) := by
  match n with
  | 0 => simp at h
  | 1 => simp at h
  | 2 => simp at h
  | n + 3 => simp [List.take_succ_cons]

theorem encrypt_events_shape (wok : Path → Bool) (fs : FS) (path : Path)
    (password : String) (salt nonce : List Nat) :
    (encrypt_file wok fs path password salt nonce).1 = [Event.readE path] ∨
    ∃ d, (encrypt_file wok fs path password salt nonce).1 =
      [Event.readE path, Event.writeE (encPathP path) d, Event.removeE path] := by
  rcases hr : fs.read path with _ | data
  · left
    simp [encrypt_file, hr]
  · by_cases hw : wok (encPathP path) = true
    · right
      exact ⟨_, by rw [encrypt_file_ok wok fs path password salt nonce data hr hw]⟩
    · left
      simp [encrypt_file, hr, hw, pbkdf2Key_length]

theorem decrypt_events_shape (wok : Path → Bool) (fs : FS) (path : Path)
    (password : String) :
    (decrypt_file wok fs path password).1 = [Event.readE path] ∨
    ∃ d, (decrypt_file wok fs path password).1 =
      [Event.readE path, Event.writeE (decPathP path) d, Event.removeE path] := by
  rcases hr : fs.read path with _ | data
  · left
    simp [decrypt_file, hr]
  · by_cases hl : data.length < 28
    · left
      simp [decrypt_file, hr, hl]
    · rcases hd : aeadDecrypt (pbkdf2Key password (data.take 16))
          ((data.drop 16).take 12) (data.drop 28) with _ | pt
      · left
        rw [decrypt_file_err wok fs path password data hr hl hd]
      · by_cases hw : wok (decPathP path) = true
        · right
          exact ⟨pt, by rw [decrypt_file_ok wok fs path password data pt hr hl hd hw]⟩
        · left
          simp [decrypt_file, hr, hl, hd, hw, pbkdf2Key_length]

/-! ### Concrete values used by the witnesses and counterexamples -/

/-- Write oracle under which every `fs::write` succeeds. -/
def wokAll : Path → Bool := fun _ => true

/-- A concrete salt (model output of `thread_rng().fill_bytes`). -/
def salt0 : List Nat := List.replicate 16 0

/-- A concrete nonce. -/
def nonce0 : List Nat := List.replicate 12 0

/-- A concrete well-formed encrypted file body: plaintext `[9, 8]`
encrypted under password `"pw"`. -/
def encBytes0 : List Nat :=
  salt0 ++ nonce0 ++ aeadEncrypt (pbkdf2Key "pw" salt0) nonce0 [9, 8]

/-- The filesystem of an `Except` result, defaulting to empty on error. -/
def resultFS (r : Except String FS) : FS :=
  match r with
  | .ok f => f
  | .error _ => ⟨[], []⟩

/-! ### The claims -/

/-- C3: in every execution of `encrypt_file` the original plaintext file
is deleted only after the encrypted output has been written, and in
every execution of `decrypt_file` the encrypted file is deleted only
after the plaintext output has been written: in every prefix of either
operation's event trace, a `remove` of the source implies an earlier
`write` of the output. -/
theorem C3_write_before_delete (wok : Path → Bool) (fs : FS) (path : Path)
    (password : String) (salt nonce : List Nat) (n : Nat) :
    (Event.removeE path ∈ (encrypt_file wok fs path password salt nonce).1.take n →
      ∃ d, Event.writeE (encPathP path) d ∈
        (encrypt_file wok fs path password salt nonce).1.take n)
    ∧ (Event.removeE path ∈ (decrypt_file wok fs path password).1.take n →
      ∃ d, Event.writeE (decPathP path) d ∈
        (decrypt_file wok fs path password).1.take n) := by
  constructor
  · intro h
    rcases encrypt_events_shape wok fs path password salt nonce with hs | ⟨d, hs⟩
    · rw [hs] at h
      exact absurd h (not_remove_mem_single path path n)
    · rw [hs] at h ⊢
      exact ⟨d, remove_to_write h⟩
  · intro h
    rcases decrypt_events_shape wok fs path password with hs | ⟨d, hs⟩
    · rw [hs] at h
      exact absurd h (not_remove_mem_single path path n)
    · rw [hs] at h ⊢
      exact ⟨d, remove_to_write h⟩

/-- Witness for C3 at concrete inputs. -/
theorem C3_witness :
    (∃ d, Event.writeE (encPathP ["a.txt"]) d ∈
      (encrypt_file wokAll ⟨[(["a.txt"], [5, 6])], []⟩ ["a.txt"] "pw" salt0 nonce0).1.take 3)
    ∧ (∃ d, Event.writeE (decPathP ["b.enc"]) d ∈
      (decrypt_file wokAll ⟨[(["b.enc"], encBytes0)], []⟩ ["b.enc"] "pw").1.take 3) :=
  ⟨(C3_write_before_delete wokAll ⟨[(["a.txt"], [5, 6])], []⟩ ["a.txt"] "pw"
      salt0 nonce0 3).1 (by decide),
   (C3_write_before_delete wokAll ⟨[(["b.enc"], encBytes0)], []⟩ ["b.enc"] "pw"
      [] [] 3).2 (by decide)⟩

/-- C4: decrypting (with the same password) the file produced by
encrypting a byte sequence succeeds and the decrypted output file holds
exactly the original bytes. -/
theorem C4_roundtrip (wok : Path → Bool) (fs : FS) (path : Path)
    (password : String) (salt nonce data : List Nat)
    (hr : fs.read path = some data) (hs : salt.length = 16)
    (hn : nonce.length = 12) (hw1 : wok (encPathP path) = true)
    (hw2 : wok (decPathP (encPathP path)) = true) :
    ∃ fs1, (encrypt_file wok fs path password salt nonce).2 = .ok fs1 ∧
    ∃ fs2, (decrypt_file wok fs1 (encPathP path) password).2 = .ok fs2 ∧
      fs2.read (decPathP (encPathP path)) = some data := by
  refine ⟨_, by rw [encrypt_file_ok wok fs path password salt nonce data hr hw1], ?_⟩
  have hread1 : ((fs.write (encPathP path)
      (salt ++ nonce ++ aeadEncrypt (pbkdf2Key password salt) nonce data)).remove
      path).read (encPathP path) =
      some (salt ++ nonce ++ aeadEncrypt (pbkdf2Key password salt) nonce data) := by
    rw [FS.read_remove_ne _ (encPathP_ne path), FS.read_write_self]
  have hdec : aeadDecrypt
      (pbkdf2Key password ((salt ++ nonce ++ aeadEncrypt (pbkdf2Key password salt) nonce data).take 16))
      (((salt ++ nonce ++ aeadEncrypt (pbkdf2Key password salt) nonce data).drop 16).take 12)
      ((salt ++ nonce ++ aeadEncrypt (pbkdf2Key password salt) nonce data).drop 28) =
      some data := by
    rw [layout_take16 _ _ hs, layout_nonce _ hs hn, layout_drop28 _ hs hn]
    exact aead_roundtrip _ _ _
  refine ⟨_, by
    rw [decrypt_file_ok wok _ (encPathP path) password _ data hread1
      (layout_len _ hs hn) hdec hw2], ?_⟩
  rw [FS.read_remove_ne _ (decPathP_encPathP_ne path), FS.read_write_self]

/-- Witness for C4 at concrete inputs. -/
theorem C4_witness :
    ∃ fs1, (encrypt_file wokAll ⟨[(["a.txt"], [5, 6])], []⟩ ["a.txt"] "pw"
        salt0 nonce0).2 = .ok fs1 ∧
    ∃ fs2, (decrypt_file wokAll fs1 (encPathP ["a.txt"]) "pw").2 = .ok fs2 ∧
      fs2.read (decPathP (encPathP ["a.txt"])) = some [5, 6] :=
  C4_roundtrip wokAll ⟨[(["a.txt"], [5, 6])], []⟩ ["a.txt"] "pw" salt0 nonce0
    [5, 6] (by decide) (by decide) (by decide) (by decide) (by decide)

/-- C5: when AEAD tag verification fails (in particular under a wrong
password), `decrypt_file` fails with the authentication error, performs
no write and no remove (so no plaintext is produced and the source
encrypted file is untouched). -/
theorem C5_auth_failure (wok : Path → Bool) (fs : FS) (path : Path)
    (password : String) (data : List Nat)
    (hr : fs.read path = some data) (hlen : ¬ data.length < 28)
    (hd : aeadDecrypt (pbkdf2Key password (data.take 16))
      ((data.drop 16).take 12) (data.drop 28) = none) :
    decrypt_file wok fs path password =
      ([Event.readE path], .error "Decryption failed (wrong password?)") :=
  decrypt_file_err wok fs path password data hr hlen hd

/-- Witness for C5: a concrete encrypted file decrypted with a wrong
password. -/
theorem C5_witness :
    decrypt_file wokAll ⟨[(["b.enc"], encBytes0)], []⟩ ["b.enc"] "wrong" =
      ([Event.readE ["b.enc"]], .error "Decryption failed (wrong password?)") :=
  C5_auth_failure wokAll ⟨[(["b.enc"], encBytes0)], []⟩ ["b.enc"] "wrong"
    encBytes0 (by decide) (by decide) (by decide)

/-- C6 counterexample: decrypting a valid encrypted file named
`data.bin` (no `.enc` suffix) succeeds, but the plaintext is written to
`data.decrypted` — the extension is replaced — and not to
`data.bin.decrypted` as the claim's "name with `.decrypted` appended"
would require. -/
theorem C6_counterexample :
    (decrypt_file wokAll ⟨[(["data.bin"], encBytes0)], []⟩ ["data.bin"] "pw").2.isOk
      = true
    ∧ (resultFS (decrypt_file wokAll ⟨[(["data.bin"], encBytes0)], []⟩
        ["data.bin"] "pw").2).read ["data.bin.decrypted"] = none
    ∧ (resultFS (decrypt_file wokAll ⟨[(["data.bin"], encBytes0)], []⟩
        ["data.bin"] "pw").2).read ["data.decrypted"] = some [9, 8] :=
  ⟨by decide, by decide, by decide⟩

/-- C6 amended: a successful `decrypt_file` writes the plaintext to the
name with a trailing `.enc` stripped when that suffix is present;
otherwise to the name with its extension replaced by `decrypted`
(stem + `.decrypted`), which appends `.decrypted` to the whole name
exactly when the name has no extension. -/
theorem C6_amended (wok : Path → Bool) (fs : FS) (path : Path)
    (password : String) (data pt : List Nat)
    (hr : fs.read path = some data) (hlen : ¬ data.length < 28)
    (hd : aeadDecrypt (pbkdf2Key password (data.take 16))
      ((data.drop 16).take 12) (data.drop 28) = some pt)
    (hw : wok (decPathP path) = true) :
    (decrypt_file wok fs path password).2 =
      .ok ((fs.write (decPathP path) pt).remove path)
    ∧ (endsWithEncC (nameOf path).data = true →
        decNameC (nameOf path).data =
          (nameOf path).data.take ((nameOf path).data.length - 4))
    ∧ (endsWithEncC (nameOf path).data = false →
        decNameC (nameOf path).data =
          (splitExtC (nameOf path).data).1 ++ '.' :: "decrypted".data)
    ∧ (endsWithEncC (nameOf path).data = false →
        (splitExtC (nameOf path).data).2 = none →
        decNameC (nameOf path).data = (nameOf path).data ++ ".decrypted".data) := by
  refine ⟨by rw [decrypt_file_ok wok fs path password data pt hr hlen hd hw], ?_, ?_, ?_⟩
  · intro he
    unfold decNameC
    rw [if_pos he]
  · intro he
    unfold decNameC withExtC
    rw [if_neg (by simp [he]), if_neg (by decide)]
  · intro he hsp
    unfold decNameC withExtC
    rw [if_neg (by simp [he]), if_neg (by decide)]
    have h2 : splitExtC (nameOf path).data = ((splitExtC (nameOf path).data).1, none) := by
      rw [← hsp]
    rw [splitExtC_none h2]

/-- Witness for C6 amended at concrete inputs: a `.enc`-suffixed name is
stripped. -/
theorem C6_witness :
    (decrypt_file wokAll ⟨[(["n.enc"], encBytes0)], []⟩ ["n.enc"] "pw").2 =
      .ok ((FS.write ⟨[(["n.enc"], encBytes0)], []⟩ (decPathP ["n.enc"]) [9, 8]).remove
        ["n.enc"])
    ∧ decNameC (nameOf ["n.enc"]).data =
        (nameOf ["n.enc"]).data.take ((nameOf ["n.enc"]).data.length - 4) :=
  ⟨(C6_amended wokAll ⟨[(["n.enc"], encBytes0)], []⟩ ["n.enc"] "pw" encBytes0
      [9, 8] (by decide) (by decide) (by decide) (by decide)).1,
   (C6_amended wokAll ⟨[(["n.enc"], encBytes0)], []⟩ ["n.enc"] "pw" encBytes0
      [9, 8] (by decide) (by decide) (by decide) (by decide)).2.1 (by decide)⟩

/-- C7 counterexample: encrypting a file named `file` (no extension)
writes the output to `file..enc` (with a doubled dot), not to
`file.enc` as the claim's "appending `.enc` to the original file name"
would require. -/
theorem C7_counterexample :
    (encrypt_file wokAll ⟨[(["file"], [1])], []⟩ ["file"] "pw" salt0 nonce0).2.isOk
      = true
    ∧ (resultFS (encrypt_file wokAll ⟨[(["file"], [1])], []⟩ ["file"] "pw"
        salt0 nonce0).2).read ["file.enc"] = none
    ∧ (resultFS (encrypt_file wokAll ⟨[(["file"], [1])], []⟩ ["file"] "pw"
        salt0 nonce0).2).read ["file..enc"] =
        some (salt0 ++ nonce0 ++ aeadEncrypt (pbkdf2Key "pw" salt0) nonce0 [1]) :=
  ⟨by decide, by decide, by decide⟩

/-- C7 amended: a successful `encrypt_file` writes to a new file whose
contents are exactly `salt ++ nonce ++ ciphertext` (16-byte salt at
offset 0, 12-byte nonce at offset 16, AEAD ciphertext from offset 28);
the output name is the original name with `.enc` appended when the name
has an extension, and the original name with `..enc` appended when it
has none. -/
theorem C7_amended (wok : Path → Bool) (fs : FS) (path : Path)
    (password : String) (salt nonce data : List Nat)
    (hr : fs.read path = some data) (hs : salt.length = 16)
    (hn : nonce.length = 12) (hw : wok (encPathP path) = true) :
    (encrypt_file wok fs path password salt nonce).2 =
      .ok ((fs.write (encPathP path)
        (salt ++ nonce ++ aeadEncrypt (pbkdf2Key password salt) nonce data)).remove path)
    ∧ ((fs.write (encPathP path)
        (salt ++ nonce ++ aeadEncrypt (pbkdf2Key password salt) nonce data)).remove
          path).read (encPathP path) =
        some (salt ++ nonce ++ aeadEncrypt (pbkdf2Key password salt) nonce data)
    ∧ (salt ++ nonce ++ aeadEncrypt (pbkdf2Key password salt) nonce data).take 16 = salt
    ∧ ((salt ++ nonce ++ aeadEncrypt (pbkdf2Key password salt) nonce data).drop 16).take 12
        = nonce
    ∧ (salt ++ nonce ++ aeadEncrypt (pbkdf2Key password salt) nonce data).drop 28
        = aeadEncrypt (pbkdf2Key password salt) nonce data
    ∧ ((splitExtC (nameOf path).data).2 ≠ none →
        encNameC (nameOf path).data = (nameOf path).data ++ ".enc".data)
    ∧ ((splitExtC (nameOf path).data).2 = none →
        encNameC (nameOf path).data = (nameOf path).data ++ "..enc".data) := by
  refine ⟨by rw [encrypt_file_ok wok fs path password salt nonce data hr hw],
    ?_, layout_take16 _ _ hs, layout_nonce _ hs hn, layout_drop28 _ hs hn, ?_, ?_⟩
  · rw [FS.read_remove_ne _ (encPathP_ne path), FS.read_write_self]
  · intro hne
    rcases hx : (splitExtC (nameOf path).data).2 with _ | ex
    · exact absurd hx hne
    · have h2 : splitExtC (nameOf path).data =
          ((splitExtC (nameOf path).data).1, some ex) := by
        rw [← hx]
      exact encNameC_of_some h2
  · intro hx
    have h2 : splitExtC (nameOf path).data =
        ((splitExtC (nameOf path).data).1, none) := by
      rw [← hx]
    exact encNameC_of_none h2

/-- Witness for C7 amended at concrete inputs: a name with an extension
gets `.enc` appended. -/
theorem C7_witness :
    (encrypt_file wokAll ⟨[(["doc.txt"], [5])], []⟩ ["doc.txt"] "pw" salt0 nonce0).2 =
      .ok ((FS.write ⟨[(["doc.txt"], [5])], []⟩ (encPathP ["doc.txt"])
        (salt0 ++ nonce0 ++ aeadEncrypt (pbkdf2Key "pw" salt0) nonce0 [5])).remove
        ["doc.txt"])
    ∧ encNameC (nameOf ["doc.txt"]).data = (nameOf ["doc.txt"]).data ++ ".enc".data :=
  ⟨(C7_amended wokAll ⟨[(["doc.txt"], [5])], []⟩ ["doc.txt"] "pw" salt0 nonce0
      [5] (by decide) (by decide) (by decide) (by decide)).1,
   (C7_amended wokAll ⟨[(["doc.txt"], [5])], []⟩ ["doc.txt"] "pw" salt0 nonce0
      [5] (by decide) (by decide) (by decide) (by decide)).2.2.2.2.2.1 (by decide)⟩

/-- C10 counterexample: `create_zip` has no never-overwrite guard — on a
filesystem where the destination archive already exists with contents
`[7, 7]`, packing succeeds (no `AlreadyExists` error) and replaces it. -/
theorem C10_counterexample :
    (create_zip ⟨[(["f.txt"], [3]), (["arch.zip"], [7, 7])], []⟩ ["f.txt"]
      ["arch.zip"]).isOk = true
    ∧ (resultFS (create_zip ⟨[(["f.txt"], [3]), (["arch.zip"], [7, 7])], []⟩
        ["f.txt"] ["arch.zip"])).read ["arch.zip"] ≠ some [7, 7] :=
  ⟨by decide, by decide⟩

/-- C10 amended: neither `encrypt_file` nor `decrypt_file` checks
whether a file already exists at the derived output path — if it does,
the operation still succeeds and the existing file is silently
overwritten, never failing with `AlreadyExists` — in contrast to the
never-overwrite guards of `create_file` and `create_directory`
(`create_zip` has no such guard either). -/
theorem C10_amended :
    (∀ (wok : Path → Bool) (fs : FS) (path : Path) (password : String)
        (salt nonce data old : List Nat),
      fs.read path = some data → fs.read (encPathP path) = some old →
      wok (encPathP path) = true →
      ∃ fs', (encrypt_file wok fs path password salt nonce).2 = .ok fs' ∧
        fs'.read (encPathP path) =
          some (salt ++ nonce ++ aeadEncrypt (pbkdf2Key password salt) nonce data))
    ∧ (∀ (wok : Path → Bool) (fs : FS) (path : Path) (password : String)
        (data pt old : List Nat),
      fs.read path = some data → ¬ data.length < 28 →
      aeadDecrypt (pbkdf2Key password (data.take 16)) ((data.drop 16).take 12)
        (data.drop 28) = some pt →
      wok (decPathP path) = true → endsWithEncC (nameOf path).data = true →
      fs.read (decPathP path) = some old →
      ∃ fs', (decrypt_file wok fs path password).2 = .ok fs' ∧
        fs'.read (decPathP path) = some pt)
    ∧ (∀ (fs : FS) (parent : Path) (name : String),
      FS.existsP fs (parent ++ [name]) = true →
      create_file fs parent name = .error "File already exists")
    ∧ (∀ (fs : FS) (parent : Path) (name : String),
      FS.existsP fs (parent ++ [name]) = true →
      create_directory fs parent name = .error "Directory already exists") := by
  refine ⟨?_, ?_, ?_, ?_⟩
  · intro wok fs path password salt nonce data old hr hold hw
    refine ⟨_, by rw [encrypt_file_ok wok fs path password salt nonce data hr hw], ?_⟩
    rw [FS.read_remove_ne _ (encPathP_ne path), FS.read_write_self]
  · intro wok fs path password data pt old hr hlen hd hw he hold
    refine ⟨_, by rw [decrypt_file_ok wok fs path password data pt hr hlen hd hw], ?_⟩
    rw [FS.read_remove_ne _ (decPathP_ne_of_endsWith he), FS.read_write_self]
  · intro fs parent name h
    unfold create_file
    rw [if_pos h]
  · intro fs parent name h
    unfold create_directory
    rw [if_pos h]

/-- Witness for C10 amended at concrete inputs. -/
theorem C10_witness :
    (∃ fs', (encrypt_file wokAll ⟨[(["a.txt"], [5]), (["a.txt.enc"], [0])], []⟩
        ["a.txt"] "pw" salt0 nonce0).2 = .ok fs' ∧
      fs'.read (encPathP ["a.txt"]) =
        some (salt0 ++ nonce0 ++ aeadEncrypt (pbkdf2Key "pw" salt0) nonce0 [5]))
    ∧ (∃ fs', (decrypt_file wokAll ⟨[(["b.enc"], encBytes0), (["b"], [4])], []⟩
        ["b.enc"] "pw").2 = .ok fs' ∧
      fs'.read (decPathP ["b.enc"]) = some [9, 8])
    ∧ create_file ⟨[(["d", "x"], [1])], []⟩ ["d"] "x" = .error "File already exists"
    ∧ create_directory ⟨[], [["d", "y"]]⟩ ["d"] "y" =
        .error "Directory already exists" :=
  ⟨C10_amended.1 wokAll ⟨[(["a.txt"], [5]), (["a.txt.enc"], [0])], []⟩ ["a.txt"]
      "pw" salt0 nonce0 [5] [0] (by decide) (by decide) (by decide),
   C10_amended.2.1 wokAll ⟨[(["b.enc"], encBytes0), (["b"], [4])], []⟩ ["b.enc"]
      "pw" encBytes0 [9, 8] [4] (by decide) (by decide) (by decide) (by decide)
      (by decide) (by decide),
   C10_amended.2.2.1 ⟨[(["d", "x"], [1])], []⟩ ["d"] "x" (by decide),
   C10_amended.2.2.2 ⟨[], [["d", "y"]]⟩ ["d"] "y" (by decide)⟩

theorem extract_step_none {e : ZipEntry} (destDir : Path) (fs : FS)
    (rest : List ZipEntry) (h : enclosedName e.name = none) :
    extract_zip destDir fs (e :: rest) = extract_zip destDir fs rest := by
  simp [extract_zip, h]

theorem extract_step_dir {e : ZipEntry} {comps : List String} (destDir : Path)
    (fs : FS) (rest : List ZipEntry) (h : enclosedName e.name = some comps)
    (hsl : endsWithSlash e.name = true) :
    extract_zip destDir fs (e :: rest) =
      (Event.mkdirE (destDir ++ comps) ::
        (extract_zip destDir (fs.mkdirAll (destDir ++ comps)) rest).1,
       (extract_zip destDir (fs.mkdirAll (destDir ++ comps)) rest).2) := by
  simp [extract_zip, h, hsl]

theorem extract_step_file_ex {e : ZipEntry} {comps : List String} (destDir : Path)
    (fs : FS) (rest : List ZipEntry) (h : enclosedName e.name = some comps)
    (hsl : endsWithSlash e.name = false)
    (hex : fs.existsP (destDir ++ comps).dropLast = true) :
    extract_zip destDir fs (e :: rest) =
      (Event.writeE (destDir ++ comps) e.data ::
        (extract_zip destDir (fs.write (destDir ++ comps) e.data) rest).1,
       (extract_zip destDir (fs.write (destDir ++ comps) e.data) rest).2) := by
  simp [extract_zip, h, hsl, hex]

theorem extract_step_file_mk {e : ZipEntry} {comps : List String} (destDir : Path)
    (fs : FS) (rest : List ZipEntry) (h : enclosedName e.name = some comps)
    (hsl : endsWithSlash e.name = false)
    (hex : fs.existsP (destDir ++ comps).dropLast = false) :
    extract_zip destDir fs (e :: rest) =
      (Event.mkdirE (destDir ++ comps).dropLast ::
        Event.writeE (destDir ++ comps) e.data ::
        (extract_zip destDir
          ((fs.mkdirAll (destDir ++ comps).dropLast).write (destDir ++ comps) e.data)
          rest).1,
       (extract_zip destDir
          ((fs.mkdirAll (destDir ++ comps).dropLast).write (destDir ++ comps) e.data)
          rest).2) := by
  simp [extract_zip, h, hsl, hex]

/-- C1 counterexample: extracting an archive whose only entry is named
`../evil.txt` (a zip-slip attempt) succeeds with `Ok` — the entry is
silently skipped (no event at all is performed) — instead of being
rejected with a `Security` error; likewise for an absolute entry name. -/
theorem C1_counterexample :
    extract_zip ["dest"] ⟨[], []⟩ [⟨"../evil.txt", [7]⟩] = ([], .ok ⟨[], []⟩)
    ∧ extract_zip ["dest"] ⟨[], []⟩ [⟨"/abs/evil.txt", [7]⟩] = ([], .ok ⟨[], []⟩) :=
  ⟨rfl, rfl⟩

/-- C1 amended: `extract_zip` silently skips (rather than rejecting with
an error) any entry whose stored name is absolute or would escape the
destination via `..` components: extraction always returns `Ok`, and
every file it does write lands inside `destDir` — the resolved path of
every write event starts with `destDir`, lexically and after `.`/`..`
resolution. -/
theorem C1_amended (fs : FS) (destDir : Path) (entries : List ZipEntry)
    (hD : ∀ c ∈ destDir, c ≠ "." ∧ c ≠ "..") :
    (∃ fs', (extract_zip destDir fs entries).2 = .ok fs') ∧
    (∀ p d, Event.writeE p d ∈ (extract_zip destDir fs entries).1 →
      (resolveA [] p).take destDir.length = destDir ∧
      p.take destDir.length = destDir) := by
  induction entries generalizing fs with
  | nil => exact ⟨⟨fs, rfl⟩, by simp [extract_zip]⟩
  | cons e rest ih =>
    rcases henc : enclosedName e.name with _ | comps
    · rw [extract_step_none destDir fs rest henc]
      exact ih fs
    · have hok := enclosedName_okD henc
      have hcont : (resolveA [] (destDir ++ comps)).take destDir.length = destDir ∧
          (destDir ++ comps).take destDir.length = destDir := by
        constructor
        · rw [resolveA_append destDir comps []]
          have hdd : resolveA [] destDir = destDir := by
            have := resolveA_noDots destDir [] hD
            simpa using this
          rw [hdd]
          obtain ⟨r, hrw⟩ := okD_resolveA comps 0 destDir [] rfl hok
          rw [List.append_nil] at hrw
          rw [hrw, take_len_append]
        · rw [take_len_append]
      by_cases hsl : endsWithSlash e.name = true
      · rw [extract_step_dir destDir fs rest henc hsl]
        refine ⟨(ih (fs.mkdirAll (destDir ++ comps))).1, ?_⟩
        intro p d hmem
        rcases List.mem_cons.1 hmem with hhd | htl
        · exact absurd hhd (by simp)
        · exact (ih (fs.mkdirAll (destDir ++ comps))).2 p d htl
      · rw [Bool.not_eq_true] at hsl
        by_cases hex : fs.existsP (destDir ++ comps).dropLast = true
        · rw [extract_step_file_ex destDir fs rest henc hsl hex]
          refine ⟨(ih (fs.write (destDir ++ comps) e.data)).1, ?_⟩
          intro p d hmem
          rcases List.mem_cons.1 hmem with hhd | htl
          · obtain ⟨hp, _⟩ : p = destDir ++ comps ∧ d = e.data := by
              have h1 := hhd
              injection h1 with h2 h3
              exact ⟨h2, h3⟩
            rw [hp]
            exact hcont
          · exact (ih (fs.write (destDir ++ comps) e.data)).2 p d htl
        · rw [Bool.not_eq_true] at hex
          rw [extract_step_file_mk destDir fs rest henc hsl hex]
          refine ⟨(ih ((fs.mkdirAll (destDir ++ comps).dropLast).write
            (destDir ++ comps) e.data)).1, ?_⟩
          intro p d hmem
          rcases List.mem_cons.1 hmem with hhd | htl
          · exact absurd hhd (by simp)
          · rcases List.mem_cons.1 htl with hhd2 | htl2
            · obtain ⟨hp, _⟩ : p = destDir ++ comps ∧ d = e.data := by
                injection hhd2 with h2 h3
                exact ⟨h2, h3⟩
              rw [hp]
              exact hcont
            · exact (ih ((fs.mkdirAll (destDir ++ comps).dropLast).write
                (destDir ++ comps) e.data)).2 p d htl2

/-- Witness for C1 amended at concrete inputs: a benign nested entry is
written inside the destination. -/
theorem C1_witness :
    (∃ fs', (extract_zip ["dest"] ⟨[], []⟩ [⟨"sub/ok.txt", [1]⟩]).2 = .ok fs')
    ∧ ((resolveA [] ["dest", "sub", "ok.txt"]).take 1 = ["dest"]
        ∧ (["dest", "sub", "ok.txt"] : Path).take 1 = ["dest"]) :=
  ⟨(C1_amended ⟨[], []⟩ ["dest"] [⟨"sub/ok.txt", [1]⟩] (by decide)).1,
   (C1_amended ⟨[], []⟩ ["dest"] [⟨"sub/ok.txt", [1]⟩] (by decide)).2
     ["dest", "sub", "ok.txt"] [1] (by decide)⟩

/-- C2 counterexample: on a filesystem where a file already exists at
the destination, `create_zip` does not fail with `AlreadyExists` — it
succeeds and replaces the destination's contents. -/
theorem C2_counterexample :
    (create_zip ⟨[(["src.txt"], [1, 2]), (["dest.zip"], [9])], []⟩ ["src.txt"]
      ["dest.zip"]).isOk = true
    ∧ (resultFS (create_zip ⟨[(["src.txt"], [1, 2]), (["dest.zip"], [9])], []⟩
        ["src.txt"] ["dest.zip"])).read ["dest.zip"] ≠ some [9] :=
  ⟨by decide, by decide⟩

/-- C2 amended: `create_zip` itself never fails with `AlreadyExists`
(its `File::create` unconditionally creates or truncates the
destination, so an existing archive is overwritten); the never-overwrite
guard lives in its caller, the app-layer `compress_selected`, which
refuses with "Destination zip already exists" when the destination
exists. -/
theorem C2_amended :
    (∀ (fs : FS) (src dest : Path), ∃ fs', create_zip fs src dest = .ok fs')
    ∧ (∀ (fs : FS) (src : Path), FS.existsP fs (withExtensionP src "zip") = true →
        compress_selected fs src = .error "Destination zip already exists") := by
  constructor
  · intro fs src dest
    unfold create_zip
    by_cases h : (fs.read src).isSome
    · rw [if_pos h]
      exact ⟨_, rfl⟩
    · rw [if_neg h]
      exact ⟨_, rfl⟩
  · intro fs src h
    unfold compress_selected
    rw [if_pos h]

/-- Witness for C2 amended at concrete inputs. -/
theorem C2_witness :
    (∃ fs', create_zip ⟨[], []⟩ ["a"] ["b"] = .ok fs')
    ∧ compress_selected ⟨[(["s.zip"], [1])], []⟩ ["s.txt"] =
        .error "Destination zip already exists" :=
  ⟨C2_amended.1 ⟨[], []⟩ ["a"] ["b"],
   C2_amended.2 ⟨[(["s.zip"], [1])], []⟩ ["s.txt"] (by decide)⟩

/-- Concrete directory entry named `B`. -/
def eDirB : FileEntry := ⟨"B", ["B"], .Directory, 0, 0, false⟩

/-- Concrete directory entry named `a`. -/
def eDira : FileEntry := ⟨"a", ["a"], .Directory, 0, 0, false⟩

/-- Concrete file entry named `c.txt`. -/
def eFilec : FileEntry := ⟨"c.txt", ["c.txt"], .File, 3, 0, false⟩

/-- Concrete file entry named `A.txt`. -/
def eFileA : FileEntry := ⟨"A.txt", ["A.txt"], .File, 4, 0, false⟩

/-- C8 counterexample: for a directory containing subdirectories
`{"B", "a"}` and files `{"c.txt", "A.txt"}`, the listing is
`["a", "B", "A.txt", "c.txt"]` — case-insensitively `"a" < "B"` — not
`["B", "a", "A.txt", "c.txt"]` as the claim's example states. -/
theorem C8_counterexample :
    (read_directory [eDirB, eDira, eFilec, eFileA]).map (fun e => e.name)
      = ["a", "B", "A.txt", "c.txt"]
    ∧ (read_directory [eDirB, eDira, eFilec, eFileA]).map (fun e => e.name)
      ≠ ["B", "a", "A.txt", "c.txt"] :=
  ⟨by decide, by decide⟩

/-- C8 amended: `read_directory` returns a permutation of the entries in
which every directory precedes every non-directory and entries of the
same group are in case-insensitive lexicographic name order; for
subdirectories `{"B", "a"}` and files `{"c.txt", "A.txt"}` the order is
`["a", "B", "A.txt", "c.txt"]`. -/
theorem C8_amended (raw : List FileEntry) :
    (read_directory raw).Pairwise (fun a b => isDirB b = true → isDirB a = true)
    ∧ (read_directory raw).Pairwise (fun a b => isDirB a = isDirB b →
        lexCmp (nameKey a.name) (nameKey b.name) ≠ .gt)
    ∧ (read_directory raw).Perm raw
    ∧ (read_directory [eDirB, eDira, eFilec, eFileA]).map (fun e => e.name)
        = ["a", "B", "A.txt", "c.txt"] := by
  have hsorted : (read_directory raw).Pairwise (fun a b => rdCmp a b ≠ .gt) :=
    sortBy_sorted rdCmp (fun a b d h1 h2 => rdCmp_le_trans h1 h2) rdCmp_total raw
  refine ⟨hsorted.imp ?_, hsorted.imp ?_, sortBy_perm rdCmp raw, by decide⟩
  · intro a b hr hb
    cases hha : isDirB a
    · exact absurd (by simp [rdCmp, hha, hb]) hr
    · rfl
  · intro a b hr hab
    cases hha : isDirB a <;> cases hhb : isDirB b
    · have : rdCmp a b = lexCmp (nameKey a.name) (nameKey b.name) := by
        simp [rdCmp, hha, hhb]
      rw [this] at hr
      exact hr
    · rw [hha, hhb] at hab
      exact absurd hab (by simp)
    · rw [hha, hhb] at hab
      exact absurd hab (by simp)
    · have : rdCmp a b = lexCmp (nameKey a.name) (nameKey b.name) := by
        simp [rdCmp, hha, hhb]
      rw [this] at hr
      exact hr

/-- C9: after `sort_entries`, for every sort column and direction, every
directory still precedes every non-directory, entries of the same group
are ordered by the chosen column comparator (with the requested
direction), and the result is a permutation of the input —
directories-first holds independently of the sort column. -/
theorem C9_dirs_first (c : SortColumn) (o : SortOrder) (l : List FileEntry) :
    (sort_entries c o l).Pairwise (fun a b => isDirB b = true → isDirB a = true)
    ∧ (sort_entries c o l).Pairwise (fun a b => isDirB a = isDirB b →
        entCmp c o a b ≠ .gt)
    ∧ (sort_entries c o l).Perm l := by
  have hsorted : (sortBy (entCmp c o) l).Pairwise (fun a b => entCmp c o a b ≠ .gt) :=
    sortBy_sorted (entCmp c o) (fun a b d h1 h2 => entCmp_le_trans h1 h2)
      (entCmp_total c o) l
  have hfil := sortBy_dirCmp_eq_filter (sortBy (entCmp c o) l)
  have hF : ∀ a ∈ (sortBy (entCmp c o) l).filter (fun e => isDirB e),
      isDirB a = true := fun a ha => (List.mem_filter.1 ha).2
  have hG : ∀ a ∈ (sortBy (entCmp c o) l).filter (fun e => !(isDirB e)),
      isDirB a = false := fun a ha => by
    simpa using (List.mem_filter.1 ha).2
  have hsF : ((sortBy (entCmp c o) l).filter (fun e => isDirB e)).Pairwise
      (fun a b => entCmp c o a b ≠ .gt) :=
    hsorted.sublist (List.filter_sublist _)
  have hsG : ((sortBy (entCmp c o) l).filter (fun e => !(isDirB e))).Pairwise
      (fun a b => entCmp c o a b ≠ .gt) :=
    hsorted.sublist (List.filter_sublist _)
  refine ⟨?_, ?_, ?_⟩
  · show (sortBy dirCmp (sortBy (entCmp c o) l)).Pairwise _
    rw [hfil]
    refine List.pairwise_append.2 ⟨?_, ?_, ?_⟩
    · exact List.pairwise_of_forall_mem_list (fun a ha b hb _ => hF a ha)
    · exact List.pairwise_of_forall_mem_list (fun a ha b hb hbdir =>
        absurd hbdir (by simp [hG b hb]))
    · intro a ha b hb hbdir
      exact absurd hbdir (by simp [hG b hb])
  · show (sortBy dirCmp (sortBy (entCmp c o) l)).Pairwise _
    rw [hfil]
    refine List.pairwise_append.2 ⟨?_, ?_, ?_⟩
    · exact hsF.imp (fun hr => fun _ => hr)
    · exact hsG.imp (fun hr => fun _ => hr)
    · intro a ha b hb hab
      rw [hF a ha, hG b hb] at hab
      exact absurd hab (by simp)
  · exact (sortBy_perm dirCmp (sortBy (entCmp c o) l)).trans
      (sortBy_perm (entCmp c o) l)

end Wander
